import Mathlib

/-!
Shallow embedding of the `rush` shell (Pradene/rush) for specification checking.

Sources embedded:
  * `src/lexer.rs`   — tokenizer (`Lexer`, `Token`, `next_token`, `tokens`, ...)
  * `src/parser.rs`  — recursive-descent command parsing (`parse_list`,
    `parse_pipeline`, `parse_command`, `parse_redirection`)
  * `src/command.rs` — command AST (`Command`, `Operator`, `Redirection`) and the
    execution engine (`execute`, `redirect`, `execute_builtin`, `is_builtin`)

Modelling conventions:
  * Rust `Vec<char>` becomes `List Char`, `usize` positions become `Nat`.
  * Rust `char::is_whitespace` is modelled with `Char.isWhitespace`
    (ASCII whitespace; the difference only concerns exotic Unicode spaces).
  * Source `while` loops become gas-indexed structural recursions.  The gas is
    always chosen at least as large as the number of characters (respectively
    tokens) still available, so gas exhaustion coincides exactly with the
    source's own loop-exit condition; for the token loop of `Lexer::tokens`
    sufficiency follows from the progress property proved below.
  * `parser.rs` belongs to an older iteration of the crate: it writes
    `Token::RedirectType` for the lexer's `Token::RedirectOperator` and names
    the `Redirection` field `direction` where `command.rs` says `operator`.
    The variants and values coincide, so a single `RedirectOperator` type and
    a single `Redirection` structure (with `command.rs` field names) are used.
-/

/-- `RedirectOperator` from command.rs (lines 33-41).  The source comments
document the intended surface syntax: Overwrite `>`, Append `>>`, Input `<`,
HereDoc `<<`, DuplicateIn `<&`, DuplicateOut `>&`. -/
inductive RedirectOperator where
  | Overwrite
  | Append
  | Input
  | HereDoc
  | DuplicateIn
  | DuplicateOut
deriving DecidableEq, Repr

/-- `Token` from lexer.rs (lines 3-17). -/
inductive Token where
  | Word (s : String)
  | SingleQuoted (s : String)
  | DoubleQuoted (s : String)
  | Semicolon
  | Pipe
  | And
  | Or
  | Background
  | RedirectOperator (op : RedirectOperator)
  | LParen
  | RParen
  | EOF
deriving DecidableEq, Repr

/-- `Lexer` state from lexer.rs (lines 19-22). -/
structure Lexer where
  input : List Char
  position : Nat
deriving DecidableEq, Repr

namespace Lexer

/-- `Lexer::new` (lexer.rs lines 25-30). -/
def new (input : String) : Lexer := ⟨input.data, 0⟩

/-- `Lexer::consume` (lexer.rs lines 57-59). -/
def consume (l : Lexer) : Lexer := { l with position := l.position + 1 }

/-- `Lexer::peek` (lexer.rs lines 53-55). -/
def peek (l : Lexer) : Option Char := l.input[l.position]?

/-- `Lexer::is_operator` (lexer.rs lines 196-198). -/
def is_operator (c : Char) : Bool :=
  c = ';' || c = '|' || c = '&' || c = '>' || c = '<' || c = '(' || c = ')'

/-- Loop body of `Lexer::skip_whitespace` (lexer.rs lines 47-51), gas-indexed.
The gas is kept equal to `input.length - position`, which bounds the number of
iterations the source loop can make. -/
def swLoop : Nat → Lexer → Lexer
  | 0, l => l
  | g + 1, l =>
    if h : l.position < l.input.length then
      if (l.input.get ⟨l.position, h⟩).isWhitespace then
        swLoop g (consume l)
      else l
    else l

/-- `Lexer::skip_whitespace` (lexer.rs lines 47-51). -/
def skip_whitespace (l : Lexer) : Lexer :=
  swLoop (l.input.length - l.position) l

/-- `Lexer::handle_semicolon` (lexer.rs lines 83-86). -/
def handle_semicolon (l : Lexer) : Token × Lexer :=
  (Token.Semicolon, consume l)

/-- `Lexer::handle_pipe` (lexer.rs lines 88-96). -/
def handle_pipe (l : Lexer) : Token × Lexer :=
  let l1 := consume l
  if peek l1 = some '|' then (Token.Or, consume l1) else (Token.Pipe, l1)

/-- `Lexer::handle_ampersand` (lexer.rs lines 98-106). -/
def handle_ampersand (l : Lexer) : Token × Lexer :=
  let l1 := consume l
  if peek l1 = some '&' then (Token.And, consume l1) else (Token.Background, l1)

/-- `Lexer::handle_redirect_in` (lexer.rs lines 108-121). -/
def handle_redirect_in (l : Lexer) : Token × Lexer :=
  let l1 := consume l
  if peek l1 = some '<' then
    (Token.RedirectOperator RedirectOperator.HereDoc, consume l1)
  else if peek l1 = some '&' then
    (Token.RedirectOperator RedirectOperator.DuplicateIn, consume l1)
  else
    (Token.RedirectOperator RedirectOperator.Input, l1)

/-- `Lexer::handle_redirect_out` (lexer.rs lines 123-136).  NOTE: the source
checks for a following `'<'` (not `'>'`) before emitting `Append`. -/
def handle_redirect_out (l : Lexer) : Token × Lexer :=
  let l1 := consume l
  if peek l1 = some '<' then
    (Token.RedirectOperator RedirectOperator.Append, consume l1)
  else if peek l1 = some '&' then
    (Token.RedirectOperator RedirectOperator.DuplicateOut, consume l1)
  else
    (Token.RedirectOperator RedirectOperator.Overwrite, l1)

/-- `Lexer::handle_parentheses` (lexer.rs lines 138-146). -/
def handle_parentheses (l : Lexer) : Token × Lexer :=
  if peek l = some '(' then (Token.LParen, consume l) else (Token.RParen, consume l)

/-- Loop body of `Lexer::read_quoted` (lexer.rs lines 158-178), gas-indexed.
Each iteration advances the position by at least one, so any gas of at least
`input.length - position` makes gas exhaustion coincide with the loop's own
`position < input.len()` exit condition. -/
def rqLoop (quote : Char) : Nat → Lexer → List Char → List Char × Lexer
  | 0, l, content => (content, l)
  | g + 1, l, content =>
    if h : l.position < l.input.length then
      let c := l.input.get ⟨l.position, h⟩
      if c = quote then
        (content, consume l)
      else if c = '\\' ∧ quote = '"' then
        let l1 := consume l
        if h2 : l1.position < l1.input.length then
          rqLoop quote g (consume l1) (content ++ [l1.input.get ⟨l1.position, h2⟩])
        else (content, l1)
      else
        rqLoop quote g (consume l) (content ++ [c])
    else (content, l)

/-- `Lexer::read_quoted` (lexer.rs lines 158-178): consumes the opening quote,
then reads content until the closing quote or end of input. -/
def read_quoted (quote : Char) (l : Lexer) : List Char × Lexer :=
  rqLoop quote (l.input.length + 1) (consume l) []

/-- `Lexer::read_single_quoted` (lexer.rs lines 148-151). -/
def read_single_quoted (l : Lexer) : Token × Lexer :=
  let p := read_quoted '\'' l
  (Token.SingleQuoted (String.mk p.1), p.2)

/-- `Lexer::read_double_quoted` (lexer.rs lines 153-156). -/
def read_double_quoted (l : Lexer) : Token × Lexer :=
  let p := read_quoted '"' l
  (Token.DoubleQuoted (String.mk p.1), p.2)

/-- Loop body of `Lexer::read_word` (lexer.rs lines 180-194), gas-indexed. -/
def rwLoop : Nat → Lexer → List Char → List Char × Lexer
  | 0, l, word => (word, l)
  | g + 1, l, word =>
    if h : l.position < l.input.length then
      let c := l.input.get ⟨l.position, h⟩
      if c.isWhitespace ∨ is_operator c then (word, l)
      else rwLoop g (consume l) (word ++ [c])
    else (word, l)

/-- `Lexer::read_word` (lexer.rs lines 180-194). -/
def read_word (l : Lexer) : Token × Lexer :=
  let p := rwLoop (l.input.length + 1) l []
  (Token.Word (String.mk p.1), p.2)

/-- `Lexer::next_token` (lexer.rs lines 61-81).  The source dispatches on the
peeked character; the `None` arm is unreachable because the bound was just
checked. -/
def next_token (l : Lexer) : Token × Lexer :=
  let l1 := skip_whitespace l
  if h : l1.position < l1.input.length then
    let c := l1.input.get ⟨l1.position, h⟩
    if c = ';' then handle_semicolon l1
    else if c = '|' then handle_pipe l1
    else if c = '&' then handle_ampersand l1
    else if c = '>' then handle_redirect_out l1
    else if c = '<' then handle_redirect_in l1
    else if c = '(' then handle_parentheses l1
    else if c = ')' then handle_parentheses l1
    else if c = '\'' then read_single_quoted l1
    else if c = '"' then read_double_quoted l1
    else read_word l1
  else (Token.EOF, l1)

/-- Loop body of `Lexer::tokens` (lexer.rs lines 32-45), gas-indexed.  The gas
`input.length - position + 1` is sufficient because every call to `next_token`
that does not return `EOF` advances the position by at least one character
(theorem `c9_lexer_progress` below). -/
def tokensLoop : Nat → Lexer → List Token
  | 0, _ => []
  | g + 1, l =>
    let p := next_token l
    if p.1 = Token.EOF then [] else p.1 :: tokensLoop g p.2

/-- `Lexer::tokens` (lexer.rs lines 32-45). -/
def tokens (l : Lexer) : List Token :=
  tokensLoop (l.input.length - l.position + 1) l

end Lexer

/-! ## Redirection data (command.rs lines 20-31)

`parser.rs` (an older iteration) names the operator field `direction` and the
type `RedirectType`; `command.rs` names them `operator` and
`RedirectOperator`.  The variants and uses coincide, so one structure with the
`command.rs` names serves both. -/

/-- `RedirectTarget` from command.rs (lines 27-31). -/
inductive RedirectTarget where
  | File (path : String)
  | FileDescriptor (fd : Nat)
deriving DecidableEq, Repr

/-- `Redirection` from command.rs (lines 20-25); `fd` is a `u32` option. -/
structure Redirection where
  fd : Option Nat
  operator : RedirectOperator
  target : RedirectTarget
deriving DecidableEq, Repr

/-- Rust `str::parse::<u32>`: an optional leading `'+'`, then one or more
ASCII digits, no other characters, and the value must fit in 32 bits. -/
def parseU32 (s : String) : Option Nat :=
  let ds := match s.data with
    | '+' :: rest => rest
    | cs => cs
  if ds = [] then none
  else if ds.all Char.isDigit then
    let v := ds.foldl (fun acc c => acc * 10 + (c.toNat - '0'.toNat)) 0
    if v < 2 ^ 32 then some v else none
  else none

/-! ## Parser (parser.rs)

The source parser pulls tokens lazily from the lexer
(`self.current_token` / `self.advance()`); the embedding passes the remaining
token stream explicitly, with the head standing for `current_token` and an
empty list standing for the lexer's endless `EOF`.  The parser AST is the
`Command` enum of this `parser.rs` iteration (variants `Simple`, `Pipeline`,
`List`) — the executor's `Command` in command.rs differs and is embedded
separately below.  Recursion in loops is gas-indexed; the top-level entry
supplies gas `tokens.length + 1`, which is sufficient because every loop
iteration consumes at least one token, so the gas-exhaustion branch is
unreachable from the entry point. -/

namespace P

/-- `ListSeparator` as used by parser.rs (lines 42-48). -/
inductive ListSeparator where
  | Semicolon
  | And
  | Or
  | Background
deriving DecidableEq, Repr

/-- The parser iteration's `Command` enum: `Simple`, `Pipeline`, `List`. -/
inductive Command where
  | Simple (executable : String) (args : List String) (redirects : List Redirection)
  | Pipeline (left right : Command)
  | List (commands : List Command) (separators : List ListSeparator)
deriving Repr

/-- The target match of `Parser::parse_redirection` (parser.rs lines
135-153): a word or quoted token becomes the file target completing the
`Redirection`; anything else is a parse error. -/
def redirect_target_of (fd : Option Nat) (rt : RedirectOperator) (ts2 : List Token) :
    Except String (Redirection × List Token) :=
  match ts2 with
  | Token.Word filename :: ts3 =>
    Except.ok ({ fd := fd, operator := rt, target := RedirectTarget.File filename }, ts3)
  | Token.SingleQuoted s :: ts3 =>
    Except.ok ({ fd := fd, operator := rt, target := RedirectTarget.File s }, ts3)
  | Token.DoubleQuoted s :: ts3 =>
    Except.ok ({ fd := fd, operator := rt, target := RedirectTarget.File s }, ts3)
  | _ => Except.error "Invalid redirect target"

/-- `Parser::parse_redirection` (parser.rs lines 110-154): read the operator,
fill in the type-derived default descriptor, optionally override it with an
immediately following integer word (consuming that word), then read the file
target. -/
def parse_redirection (ts : List Token) : Except String (Redirection × List Token) :=
  match ts with
  | Token.RedirectOperator rt :: ts1 =>
    -- Default file descriptors based on redirect type (lines 117-125)
    let fd : Option Nat :=
      match rt with
      | RedirectOperator.Overwrite => some 1
      | RedirectOperator.Append => some 1
      | RedirectOperator.DuplicateOut => some 1
      | RedirectOperator.Input => some 0
      | RedirectOperator.DuplicateIn => some 0
      | RedirectOperator.HereDoc => some 0
    -- Handle explicit file descriptors (lines 127-133), then the target
    match ts1 with
    | Token.Word n :: rest =>
      (match parseU32 n with
       | some num => redirect_target_of (some num) rt rest
       | none => redirect_target_of fd rt (Token.Word n :: rest))
    | _ => redirect_target_of fd rt ts1
  | _ => Except.error "Expected redirect operator"

/-- Loop of `Parser::parse_command` (parser.rs lines 82-97): accumulate words
and redirections until a non-word, non-redirection token. -/
def parse_command_loop :
    Nat → List String → List Redirection → List Token →
    Except String (List String × List Redirection × List Token)
  | 0, _, _, _ => Except.error "out of gas"
  | g + 1, words, reds, ts =>
    match ts with
    | Token.Word w :: rest => parse_command_loop g (words ++ [w]) reds rest
    | Token.SingleQuoted s :: rest => parse_command_loop g (words ++ [s]) reds rest
    | Token.DoubleQuoted s :: rest => parse_command_loop g (words ++ [s]) reds rest
    | Token.RedirectOperator op :: rest =>
      match parse_redirection (Token.RedirectOperator op :: rest) with
      | Except.ok (red, ts2) => parse_command_loop g words (reds ++ [red]) ts2
      | Except.error e => Except.error e
    | _ => Except.ok (words, reds, ts)

/-- `Parser::parse_command` (parser.rs lines 77-108). -/
def parse_command (g : Nat) (ts : List Token) : Except String (Command × List Token) :=
  match parse_command_loop g [] [] ts with
  | Except.error e => Except.error e
  | Except.ok (words, reds, rest) =>
    match words with
    | [] => Except.error "Empty command"
    | w :: args => Except.ok (Command.Simple w args reds, rest)

/-- Loop of `Parser::parse_pipeline` (parser.rs lines 65-72): left-fold further
commands under `|` into `Pipeline` nodes. -/
def parse_pipeline_loop :
    Nat → Command → List Token → Except String (Command × List Token)
  | 0, _, _ => Except.error "out of gas"
  | g + 1, left, ts =>
    match ts with
    | Token.Pipe :: rest =>
      match parse_command g rest with
      | Except.error e => Except.error e
      | Except.ok (right, ts2) => parse_pipeline_loop g (Command.Pipeline left right) ts2
    | _ => Except.ok (left, ts)

/-- `Parser::parse_pipeline` (parser.rs lines 62-75). -/
def parse_pipeline (g : Nat) (ts : List Token) : Except String (Command × List Token) :=
  match parse_command g ts with
  | Except.error e => Except.error e
  | Except.ok (left, ts1) => parse_pipeline_loop g left ts1

/-- The separator recognised by `Parser::parse_list`'s `while matches!` test
(parser.rs lines 39-48), if any. -/
def sepOf : Token → Option ListSeparator
  | Token.Semicolon => some ListSeparator.Semicolon
  | Token.And => some ListSeparator.And
  | Token.Or => some ListSeparator.Or
  | Token.Background => some ListSeparator.Background
  | _ => none

/-- Loop exit of `Parser::parse_list` (parser.rs lines 55-59): a single
collected command is returned bare, otherwise a flat `List` node is built. -/
def finishList (commands : List Command) (separators : List ListSeparator)
    (ts : List Token) : Except String (Command × List Token) :=
  match commands with
  | [c] => Except.ok (c, ts)
  | _ => Except.ok (Command.List commands separators, ts)

/-- Loop of `Parser::parse_list` (parser.rs lines 39-53): collect pipelines
separated by `;`, `&&`, `||`, `&` into flat `commands`/`separators` vectors. -/
def parse_list_loop :
    Nat → List Command → List ListSeparator → List Token →
    Except String (Command × List Token)
  | 0, _, _, _ => Except.error "out of gas"
  | g + 1, commands, separators, t :: rest =>
    (match sepOf t with
     | some sep =>
       match parse_pipeline g rest with
       | Except.error e => Except.error e
       | Except.ok (c, ts2) =>
         parse_list_loop g (commands ++ [c]) (separators ++ [sep]) ts2
     | none => finishList commands separators (t :: rest))
  | _ + 1, commands, separators, [] => finishList commands separators []

/-- `Parser::parse_list` (parser.rs lines 33-60). -/
def parse_list (g : Nat) (ts : List Token) : Except String (Command × List Token) :=
  match parse_pipeline g ts with
  | Except.error e => Except.error e
  | Except.ok (c, ts1) => parse_list_loop g [c] [] ts1

/-- `Parser::parse` (parser.rs lines 29-31): tokens remaining after the parsed
list are simply left unconsumed by the source, so only the command is kept. -/
def parse (ts : List Token) : Except String Command :=
  match parse_list (ts.length + 1) ts with
  | Except.error e => Except.error e
  | Except.ok (c, _) => Except.ok c

end P

/-! ## Execution engine (command.rs)

The engine runs against a small operating-system model:

  * A per-process file-descriptor table maps descriptor numbers to open-file
    handles; `dup`/`open` allocate the lowest closed slot, as POSIX requires.
  * `fork` is sequentialised: the child's whole execution is traced before the
    parent's continuation; the child's copies of `table`/`cwd` die with it,
    while pids, open-file handles and the event trace are global bookkeeping.
  * External programs, `chdir` and `open` outcomes come from an `Env` oracle.
  * `tcsetpgrp(0, pg)` and `ioctl(0, TIOCSPGRP, pg)` are recorded as `setFg pg`
    events; `println!`/`eprintln!` as `out`/`err` events. -/

/-- A file-descriptor table: slot `i` holds the open-file handle at descriptor
`i` (`none` = closed); slots beyond the list are closed. -/
abbrev FdTable := List (Option Nat)

/-- Descriptor lookup. -/
def tget (t : FdTable) (i : Nat) : Option Nat := t.getD i none

/-- Pad a table with closed slots up to length `n`. -/
def pad (t : FdTable) (n : Nat) : FdTable := t ++ List.replicate (n - t.length) none

/-- Write slot `i`, extending the table when needed. -/
def tset (t : FdTable) (i : Nat) (v : Option Nat) : FdTable := (pad t (i + 1)).set i v

/-- POSIX `dup`/`open` allocate the lowest-numbered closed descriptor. -/
def lowestFree (t : FdTable) : Nat :=
  (((List.range (t.length + 1)).find? fun i => (tget t i).isNone)).getD t.length

/-- `close(fd)`. -/
def closeT (t : FdTable) (i : Nat) : FdTable := tset t i none

/-- `dup2(src, dst)`: copy the open-file entry at `src` onto `dst`.  With a
closed `src` the call fails leaving the table unchanged (the source never
checks `dup2`'s return value). -/
def dup2T (t : FdTable) (src dst : Nat) : FdTable :=
  match tget t src with
  | none => t
  | some h => tset t dst (some h)

/-- `dup(fd)`: copy `fd` into the lowest closed slot; `none` models the `-1`
error return when `fd` is closed. -/
def dupT (t : FdTable) (i : Nat) : Option (Nat × FdTable) :=
  match tget t i with
  | none => none
  | some h => some (lowestFree t, tset t (lowestFree t) (some h))

/-- `Operator` from command.rs (lines 11-18). -/
inductive Operator where
  | Semicolon
  | Background
  | And
  | Or
  | Pipe
deriving DecidableEq, Repr

/-- The executor's `Command` enum from command.rs (lines 43-60).  (The parser
iteration in parser.rs produces the distinct `P.Command` tree above.) -/
inductive Command where
  | Simple (executable : String) (args : List String) (redirects : List Redirection)
  | Binary (left right : Command) (operator : Operator)
  | Group (group : Command)
deriving DecidableEq, Repr

/-- Observable events of an execution, chronologically. -/
inductive Event where
  | forked (child : Nat)
  | setFg (pgrp : Nat)
  | execExternal (exe : String) (args : List String)
  | out (s : String)
  | err (s : String)
deriving DecidableEq, Repr

/-- The OS oracle an execution consults. -/
structure Env where
  /-- whether `open(path, mode)` succeeds for this path and operator kind. -/
  openOk : String → RedirectOperator → Bool
  /-- `std::env::set_current_dir`: current directory and argument to new
  working directory, `none` = failure.  The OS resolves the argument string
  literally; in particular no tilde expansion happens. -/
  chdir : String → String → Option String
  /-- `execvp exe args`: `some code` = the program runs and terminates with
  `code`; `none` = exec failure. -/
  ext : String → List String → Option Int

/-- Process identity: pid and process group. -/
structure Proc where
  pid : Nat
  pgid : Nat
deriving DecidableEq, Repr

/-- State threaded through execution: the current process's descriptor table
and working directory, plus global fresh-name supplies and the event trace. -/
structure St where
  table : FdTable
  cwd : String
  nextHandle : Nat
  nextPid : Nat
  events : List Event
deriving DecidableEq, Repr

/-- Append one observable event. -/
def addEvent (s : St) (e : Event) : St := { s with events := s.events ++ [e] }

/-- `fork()`: allocate a fresh pid for the child (forks in this model always
succeed). -/
def forkSt (s : St) : Nat × St :=
  (s.nextPid,
   { s with nextPid := s.nextPid + 1, events := s.events ++ [Event.forked s.nextPid] })

/-- The executor's type-derived default descriptor, written identically at
command.rs lines 66-71 (`Command::redirect`) and lines 112-119 (builtin save
loop): 0 for input-like operators, 1 otherwise. -/
def defaultFdFor : RedirectOperator → Nat
  | RedirectOperator.Input => 0
  | RedirectOperator.DuplicateIn => 0
  | RedirectOperator.HereDoc => 0
  | _ => 1

/-- `redirection.fd.unwrap_or(<type-derived default>)`. -/
def resolveFd (r : Redirection) : Nat := r.fd.getD (defaultFdFor r.operator)

/-- One iteration of `Command::redirect` (command.rs lines 65-95): apply a
single redirection to the table.  The handle counter supplies the open-file
identity created by `open`. -/
def applyRed (env : Env) (t : FdTable) (nh : Nat) (r : Redirection) :
    Except String (FdTable × Nat) :=
  let fd := resolveFd r
  match r.target with
  | RedirectTarget.File path =>
    match r.operator with
    | RedirectOperator.Overwrite | RedirectOperator.Append | RedirectOperator.Input =>
      if env.openOk path r.operator then
        let z := lowestFree t
        let t1 := tset t z (some nh)
        let t2 := dup2T t1 z fd
        Except.ok (closeT t2 z, nh + 1)
      else Except.error "Failed to open file"
    | _ => Except.error "Unsupported redirection type"
  | RedirectTarget.FileDescriptor tfd => Except.ok (dup2T t tfd fd, nh)

/-- The loop of `Command::redirect` (command.rs lines 63-99), applied in
listed order; on error the partially updated table is kept, as the source
mutates the process's real table in place. -/
def applyReds (env : Env) : List Redirection → FdTable → Nat → Option String × FdTable × Nat
  | [], t, nh => (none, t, nh)
  | r :: rs, t, nh =>
    match applyRed env t nh r with
    | Except.error e => (some e, t, nh)
    | Except.ok (t1, nh1) => applyReds env rs t1 nh1

/-- The error cleanup of command.rs lines 125-127: close every saved
descriptor. -/
def closeSaved : List (Nat × Nat) → FdTable → FdTable
  | [], t => t
  | (_, sfd) :: rest, t => closeSaved rest (closeT t sfd)

/-- The descriptor-saving loop of the builtin path (command.rs lines
111-132): `dup` each redirection's target descriptor aside unless already
saved.  A failed `dup` closes the descriptors saved so far and aborts; the
error value carries the resulting table.  The Rust `HashMap` is modelled as
an insertion-ordered association list. -/
def saveLoop : List Redirection → FdTable → List (Nat × Nat) →
    Except FdTable (List (Nat × Nat) × FdTable)
  | [], t, saved => Except.ok (saved, t)
  | r :: rs, t, saved =>
    let fd := resolveFd r
    if (saved.lookup fd).isSome then saveLoop rs t saved
    else
      match dupT t fd with
      | none => Except.error (closeSaved saved t)
      | some (sfd, t1) => saveLoop rs t1 (saved ++ [(fd, sfd)])

/-- The restore loops of command.rs lines 136-141 and 147-152: `dup2` each
saved descriptor back onto its original slot and close the temporary copy.
Rust `HashMap` iteration order is unspecified; it is modelled as insertion
order. -/
def restoreAll : List (Nat × Nat) → FdTable → FdTable
  | [], t => t
  | (fd, sfd) :: rest, t => restoreAll rest (closeT (dup2T t sfd fd) sfd)

/-- Outcome of `execute`: a normal `i32` status, or `exited` when the process
terminated itself via `exit()`. -/
inductive Res where
  | status (code : Int)
  | exited (code : Int)
deriving DecidableEq, Repr

/-- The code a parent's `waitpid` + `WEXITSTATUS` observes for a finished
child: exit statuses are truncated to their low byte. -/
def waitCode : Res → Int
  | Res.status n => n % 256
  | Res.exited n => n % 256

/-- `Command::is_builtin` (command.rs lines 295-302), by executable name. -/
def isBuiltinName (e : String) : Bool :=
  e = "cd" || e = "echo" || e = "exit" || e = "type"

/-- `Command::execute_builtin` (command.rs lines 304-339).  `cd` passes
`args.get(0).unwrap_or("~")` to `set_current_dir` — the literal string, with
no tilde expansion.  The catch-all `panic!` arms are unreachable because the
caller guards with `is_builtin`. -/
def runBuiltin (env : Env) (exe : String) (args : List String) (s : St) : Res × St :=
  if exe = "cd" then
    let path := args.headD "~"
    match env.chdir s.cwd path with
    | some d => (Res.status 0, { s with cwd := d })
    | none => (Res.status 1, addEvent s (Event.err ("cd: " ++ path)))
  else if exe = "echo" then
    (Res.status 0, addEvent s (Event.out (String.intercalate " " args)))
  else if exe = "exit" then (Res.exited 0, s)
  else if exe = "type" then (Res.status 0, addEvent s (Event.err "Not implemented"))
  else (Res.status 1, s)

/-- The builtin branch of `Command::execute` for `Simple` commands
(command.rs lines 108-154): save target descriptors, apply redirections, run
the builtin, restore the saved descriptors.  `exit` never returns, so nothing
is restored on that path. -/
def execBuiltin (env : Env) (exe : String) (args : List String)
    (reds : List Redirection) (s : St) : Res × St :=
  match saveLoop reds s.table [] with
  | Except.error t1 =>
    (Res.status 1,
     addEvent { s with table := t1 } (Event.err "Failed to save file descriptor"))
  | Except.ok (saved, t1) =>
    match applyReds env reds t1 s.nextHandle with
    | (some e, t2, nh2) =>
      (Res.status 1,
       addEvent { s with table := restoreAll saved t2, nextHandle := nh2 }
         (Event.err ("Redirection error: " ++ e)))
    | (none, t2, nh2) =>
      let p := runBuiltin env exe args { s with table := t2, nextHandle := nh2 }
      match p.1 with
      | Res.exited n => (Res.exited n, p.2)
      | Res.status n => (Res.status n, { p.2 with table := restoreAll saved p.2.table })

/-- The external branch of `Command::execute` for `Simple` commands
(command.rs lines 155-207).  Child first (sequentialised): reset signals,
`setpgid(0,0)` — its pgid becomes its own pid — `tcsetpgrp(0, getpid())`,
apply redirections to its copied table, `execvp` (exec failure exits 1).
Parent then: `setpgid(pid, pid)`, `tcsetpgrp(0, pid)`, wait, and hand the
terminal back to the shell's own group twice (`tcsetpgrp` + `ioctl`). -/
def execExternalCmd (env : Env) (ctx : Proc) (exe : String) (args : List String)
    (reds : List Redirection) (s : St) : Res × St :=
  let f := forkSt s
  let cpid := f.1
  let s2 := addEvent f.2 (Event.setFg cpid)
  let cs :=
    match applyReds env reds s2.table s2.nextHandle with
    | (some e, _, nh) =>
      ((1 : Int), addEvent { s2 with nextHandle := nh } (Event.err ("Redirection error: " ++ e)))
    | (none, _, nh) =>
      match env.ext exe args with
      | some code => (code, addEvent { s2 with nextHandle := nh } (Event.execExternal exe args))
      | none => ((1 : Int), addEvent { s2 with nextHandle := nh } (Event.err "Execution failed"))
  let s4 := addEvent cs.2 (Event.setFg cpid)
  let s5 := addEvent (addEvent s4 (Event.setFg ctx.pgid)) (Event.setFg ctx.pgid)
  (Res.status (cs.1 % 256), s5)

/-- `Command::execute` (command.rs lines 101-293).  Forked children are
sequentialised: a child's whole execution precedes the parent's continuation,
and the parent resumes with its own `table`/`cwd`. -/
def exec (env : Env) : Proc → Command → St → Res × St
  | ctx, Command.Simple exe args reds, s =>
    if isBuiltinName exe then execBuiltin env exe args reds s
    else execExternalCmd env ctx exe args reds s
  | ctx, Command.Binary l r op, s =>
    match op with
    | Operator.Pipe =>
      -- pipe(fds): two fresh descriptors in the parent's table (lines 215-224)
      let re := lowestFree s.table
      let t1 := tset s.table re (some s.nextHandle)
      let we := lowestFree t1
      let t2 := tset t1 we (some (s.nextHandle + 1))
      let s0 : St := { s with table := t2, nextHandle := s.nextHandle + 2 }
      -- left child (lines 225-233): close read end, write end onto stdout
      let fL := forkSt s0
      let ctL := closeT (dup2T (closeT fL.2.table re) we 1) we
      let pL := exec env { pid := fL.1, pgid := ctx.pgid } l { fL.2 with table := ctL }
      -- right child (lines 235-243): close write end, read end onto stdin
      let fR := forkSt { pL.2 with table := s0.table, cwd := s0.cwd }
      let ctR := closeT (dup2T (closeT fR.2.table we) re 0) re
      let pR := exec env { pid := fR.1, pgid := ctx.pgid } r { fR.2 with table := ctR }
      -- parent (lines 245-254): close both ends, wait for both children;
      -- the reported status is the right child's
      (Res.status (waitCode pR.1),
       { pR.2 with table := closeT (closeT s0.table re) we, cwd := s0.cwd })
    | Operator.And =>
      match exec env ctx l s with
      | (Res.exited n, s1) => (Res.exited n, s1)
      | (Res.status lc, s1) =>
        if lc = 0 then exec env ctx r s1 else (Res.status lc, s1)
    | Operator.Or =>
      match exec env ctx l s with
      | (Res.exited n, s1) => (Res.exited n, s1)
      | (Res.status lc, s1) =>
        if lc = 0 then (Res.status lc, s1) else exec env ctx r s1
    | Operator.Semicolon =>
      match exec env ctx l s with
      | (Res.exited n, s1) => (Res.exited n, s1)
      | (Res.status _, s1) => exec env ctx r s1
    | Operator.Background =>
      -- fork (lines 276-288): the child evaluates the left and exits; the
      -- parent evaluates the right without waiting.  The child keeps the
      -- parent's process group: no setpgid happens on this path.
      let f := forkSt s
      let pC := exec env { pid := f.1, pgid := ctx.pgid } l f.2
      exec env ctx r { pC.2 with table := f.2.table, cwd := f.2.cwd }
  | ctx, Command.Group g, s => exec env ctx g s

/-! ## Auxiliary definitions for the statements -/

namespace P

mutual

/-- All redirections occurring in a parsed command tree. -/
def allReds : Command → List Redirection
  | Command.Simple _ _ reds => reds
  | Command.Pipeline l r => allReds l ++ allReds r
  | Command.List cmds _ => allRedsList cmds

/-- All redirections occurring in a list of parsed commands. -/
def allRedsList : List Command → List Redirection
  | [] => []
  | c :: cs => allReds c ++ allRedsList cs

end

end P

/-- The specification's classification of redirection operators, written from
the claim's words: target descriptor 0 for the input-like operators (Input,
HereDoc, DuplicateIn), 1 for the output-like ones (Overwrite, Append,
DuplicateOut).  Compared against the source-derived defaults in the C5
theorem. -/
def specDefaultFd : RedirectOperator → Nat
  | RedirectOperator.Input => 0
  | RedirectOperator.HereDoc => 0
  | RedirectOperator.DuplicateIn => 0
  | RedirectOperator.Overwrite => 1
  | RedirectOperator.Append => 1
  | RedirectOperator.DuplicateOut => 1

/-- A concrete OS oracle for witnesses: every `open` succeeds, the only
existing directory is `/home/user`, and the only external program is `ls`
(status 0). -/
def env0 : Env where
  openOk := fun _ _ => true
  chdir := fun _ p => if p = "/home/user" then some "/home/user" else none
  ext := fun e _ => if e = "ls" then some 0 else none

/-- A concrete shell process: the shell leads its own process group. -/
def ctx0 : Proc := { pid := 10, pgid := 10 }

/-- A concrete initial state: descriptors 0-4 open, working directory `/`. -/
def st0 : St where
  table := [some 90, some 91, some 92, some 93, some 94]
  cwd := "/"
  nextHandle := 100
  nextPid := 11
  events := []

/-- The two-redirection list that exhibits the descriptor-restore collision:
targets are descriptors 3 (open in `st0`) and 5 (closed in `st0`). -/
def redsC7 : List Redirection :=
  [⟨some 3, RedirectOperator.Overwrite, RedirectTarget.File "f"⟩,
   ⟨some 5, RedirectOperator.Overwrite, RedirectTarget.File "g"⟩]

/-- Invariant carried by the builtin descriptor-save loop: `t0` is the table
at entry to the builtin path, `t` the current table, `saved` the association
list (target descriptor, saved slot) built so far. -/
structure SaveInv (t0 t : FdTable) (saved : List (Nat × Nat)) : Prop where
  entries : ∀ p ∈ saved, tget t0 p.2 = none ∧ tget t p.2 = tget t0 p.1 ∧ tget t0 p.1 ≠ none
  slotsNodup : (saved.map Prod.snd).Nodup
  keysNodup : (saved.map Prod.fst).Nodup
  openPreserved : ∀ j, tget t0 j ≠ none → tget t j = tget t0 j
  newOnlySlots : ∀ j, tget t j ≠ none → tget t0 j ≠ none ∨ j ∈ saved.map Prod.snd

/-! ## Lexer lemmas: progress and termination -/

namespace Lexer

theorem swLoop_input (g : Nat) (l : Lexer) : (swLoop g l).input = l.input := by
  induction g generalizing l with
  | zero => rfl
  | succ g ih =>
    by_cases h : l.position < l.input.length
    · by_cases hws : l.input[l.position].isWhitespace
      · have e : swLoop (g + 1) l = swLoop g (consume l) := by simp [swLoop, h, hws]
        rw [e, ih]
        rfl
      · have e : swLoop (g + 1) l = l := by simp [swLoop, h, hws]
        rw [e]
    · have e : swLoop (g + 1) l = l := by simp [swLoop, h]
      rw [e]

theorem swLoop_pos_le (g : Nat) (l : Lexer) : l.position ≤ (swLoop g l).position := by
  induction g generalizing l with
  | zero => exact Nat.le_refl _
  | succ g ih =>
    by_cases h : l.position < l.input.length
    · by_cases hws : l.input[l.position].isWhitespace
      · have e : swLoop (g + 1) l = swLoop g (consume l) := by simp [swLoop, h, hws]
        rw [e]
        exact Nat.le_trans (Nat.le_succ _) (ih (consume l))
      · have e : swLoop (g + 1) l = l := by simp [swLoop, h, hws]
        rw [e]
    · have e : swLoop (g + 1) l = l := by simp [swLoop, h]
      rw [e]

theorem swLoop_post (g : Nat) (l : Lexer) (hg : l.input.length ≤ l.position + g) :
    (swLoop g l).input.length ≤ (swLoop g l).position ∨
    ∀ c, (swLoop g l).input[(swLoop g l).position]? = some c → c.isWhitespace = false := by
  induction g generalizing l with
  | zero => left; simp only [swLoop]; omega
  | succ g ih =>
    by_cases h : l.position < l.input.length
    · by_cases hws : l.input[l.position].isWhitespace
      · have e : swLoop (g + 1) l = swLoop g (consume l) := by simp [swLoop, h, hws]
        rw [e]
        exact ih (consume l) (by simp [consume]; omega)
      · have e : swLoop (g + 1) l = l := by simp [swLoop, h, hws]
        rw [e]
        right
        intro c hc
        rw [List.getElem?_eq_getElem h] at hc
        rw [← Option.some_inj.mp hc]
        simpa using hws
    · have e : swLoop (g + 1) l = l := by simp [swLoop, h]
      rw [e]
      left
      omega

end Lexer

namespace Lexer

theorem rqLoop_mono (quote : Char) (g : Nat) :
    ∀ l content, l.position ≤ (rqLoop quote g l content).2.position ∧
      (rqLoop quote g l content).2.input = l.input := by
  induction g with
  | zero => intro l content; exact ⟨Nat.le_refl _, rfl⟩
  | succ g ih =>
    intro l content
    unfold rqLoop
    split
    · dsimp only
      split
      · exact ⟨Nat.le_succ _, rfl⟩
      · split
        · split
          · refine ⟨Nat.le_trans ?_ (ih _ _).1, ((ih _ _).2).trans ?_⟩
            · simp [consume]
              omega
            · rfl
          · exact ⟨Nat.le_succ _, rfl⟩
        · refine ⟨Nat.le_trans ?_ (ih _ _).1, ((ih _ _).2).trans ?_⟩
          · simp [consume]
          · rfl
    · exact ⟨Nat.le_refl _, rfl⟩

theorem rwLoop_mono (g : Nat) :
    ∀ l word, l.position ≤ (rwLoop g l word).2.position ∧
      (rwLoop g l word).2.input = l.input := by
  induction g with
  | zero => intro l word; exact ⟨Nat.le_refl _, rfl⟩
  | succ g ih =>
    intro l word
    unfold rwLoop
    split
    · dsimp only
      split
      · exact ⟨Nat.le_refl _, rfl⟩
      · refine ⟨Nat.le_trans ?_ (ih _ _).1, ((ih _ _).2).trans ?_⟩
        · simp [consume]
        · rfl
    · exact ⟨Nat.le_refl _, rfl⟩

end Lexer

namespace Lexer

theorem handle_semicolon_spec (l : Lexer) :
    (handle_semicolon l).2.input = l.input ∧ l.position < (handle_semicolon l).2.position := by
  exact ⟨rfl, by simp [handle_semicolon, consume]⟩

theorem handle_pipe_spec (l : Lexer) :
    (handle_pipe l).2.input = l.input ∧ l.position < (handle_pipe l).2.position := by
  unfold handle_pipe
  dsimp only
  split <;> exact ⟨rfl, by simp [consume] <;> omega⟩

theorem handle_ampersand_spec (l : Lexer) :
    (handle_ampersand l).2.input = l.input ∧ l.position < (handle_ampersand l).2.position := by
  unfold handle_ampersand
  dsimp only
  split <;> exact ⟨rfl, by simp [consume] <;> omega⟩

theorem handle_redirect_in_spec (l : Lexer) :
    (handle_redirect_in l).2.input = l.input ∧ l.position < (handle_redirect_in l).2.position := by
  unfold handle_redirect_in
  dsimp only
  split
  · exact ⟨rfl, by simp [consume]; omega⟩
  · split <;> exact ⟨rfl, by simp [consume] <;> omega⟩

theorem handle_redirect_out_spec (l : Lexer) :
    (handle_redirect_out l).2.input = l.input ∧ l.position < (handle_redirect_out l).2.position := by
  unfold handle_redirect_out
  dsimp only
  split
  · exact ⟨rfl, by simp [consume]; omega⟩
  · split <;> exact ⟨rfl, by simp [consume] <;> omega⟩

theorem handle_parentheses_spec (l : Lexer) :
    (handle_parentheses l).2.input = l.input ∧ l.position < (handle_parentheses l).2.position := by
  unfold handle_parentheses
  split <;> exact ⟨rfl, by simp [consume]⟩

theorem read_quoted_spec (q : Char) (l : Lexer) :
    (read_quoted q l).2.input = l.input ∧ l.position < (read_quoted q l).2.position := by
  unfold read_quoted
  have h := rqLoop_mono q (l.input.length + 1) (consume l) []
  refine ⟨h.2.trans rfl, ?_⟩
  have h1 := h.1
  simp only [consume] at h1 ⊢
  omega

theorem read_single_quoted_spec (l : Lexer) :
    (read_single_quoted l).2.input = l.input ∧ l.position < (read_single_quoted l).2.position := by
  exact read_quoted_spec '\'' l

theorem read_double_quoted_spec (l : Lexer) :
    (read_double_quoted l).2.input = l.input ∧ l.position < (read_double_quoted l).2.position := by
  exact read_quoted_spec '"' l

theorem read_word_spec (l : Lexer) (h : l.position < l.input.length)
    (hws : (l.input.get ⟨l.position, h⟩).isWhitespace = false)
    (hop : is_operator (l.input.get ⟨l.position, h⟩) = false) :
    (read_word l).2.input = l.input ∧ l.position < (read_word l).2.position := by
  unfold read_word
  dsimp only
  have hws2 := hws
  have hop2 := hop
  simp only [List.get_eq_getElem] at hws2 hop2
  have e : ∀ g, rwLoop (g + 1) l [] =
      rwLoop g (consume l) ([] ++ [l.input.get ⟨l.position, h⟩]) := by
    intro g
    simp only [rwLoop]
    simp [h, hws2, hop2]
  rw [e l.input.length]
  have m := rwLoop_mono l.input.length (consume l) ([] ++ [l.input.get ⟨l.position, h⟩])
  refine ⟨m.2.trans rfl, ?_⟩
  have m1 := m.1
  simp only [consume] at m1 ⊢
  omega

end Lexer

namespace Lexer

theorem skip_whitespace_input (l : Lexer) : (skip_whitespace l).input = l.input :=
  swLoop_input _ l

theorem skip_whitespace_pos_le (l : Lexer) : l.position ≤ (skip_whitespace l).position :=
  swLoop_pos_le _ l

theorem skip_whitespace_post (l : Lexer) :
    (skip_whitespace l).input.length ≤ (skip_whitespace l).position ∨
    ∀ c, (skip_whitespace l).input[(skip_whitespace l).position]? = some c →
      c.isWhitespace = false :=
  swLoop_post _ l (by omega)

theorem next_token_progress (l : Lexer) :
    (next_token l).2.input = l.input ∧
    (((next_token l).1 = Token.EOF ∧ l.input.length ≤ (next_token l).2.position) ∨
      (l.position < (next_token l).2.position ∧ l.position < l.input.length)) := by
  have hin := skip_whitespace_input l
  have hle := skip_whitespace_pos_le l
  have hpost := skip_whitespace_post l
  unfold next_token
  by_cases h : (skip_whitespace l).position < (skip_whitespace l).input.length
  · rw [dif_pos h]
    dsimp only
    have hlt : l.position < l.input.length := by rw [hin] at h; omega
    split_ifs with h1 h2 h3 h4 h5 h6 h7 h8 h9
    · rcases handle_semicolon_spec (skip_whitespace l) with ⟨hi, hp⟩
      exact ⟨hi.trans hin, Or.inr ⟨by omega, hlt⟩⟩
    · rcases handle_pipe_spec (skip_whitespace l) with ⟨hi, hp⟩
      exact ⟨hi.trans hin, Or.inr ⟨by omega, hlt⟩⟩
    · rcases handle_ampersand_spec (skip_whitespace l) with ⟨hi, hp⟩
      exact ⟨hi.trans hin, Or.inr ⟨by omega, hlt⟩⟩
    · rcases handle_redirect_out_spec (skip_whitespace l) with ⟨hi, hp⟩
      exact ⟨hi.trans hin, Or.inr ⟨by omega, hlt⟩⟩
    · rcases handle_redirect_in_spec (skip_whitespace l) with ⟨hi, hp⟩
      exact ⟨hi.trans hin, Or.inr ⟨by omega, hlt⟩⟩
    · rcases handle_parentheses_spec (skip_whitespace l) with ⟨hi, hp⟩
      exact ⟨hi.trans hin, Or.inr ⟨by omega, hlt⟩⟩
    · rcases handle_parentheses_spec (skip_whitespace l) with ⟨hi, hp⟩
      exact ⟨hi.trans hin, Or.inr ⟨by omega, hlt⟩⟩
    · rcases read_single_quoted_spec (skip_whitespace l) with ⟨hi, hp⟩
      exact ⟨hi.trans hin, Or.inr ⟨by omega, hlt⟩⟩
    · rcases read_double_quoted_spec (skip_whitespace l) with ⟨hi, hp⟩
      exact ⟨hi.trans hin, Or.inr ⟨by omega, hlt⟩⟩
    · -- read_word branch: the current character is neither whitespace (from
      -- skip_whitespace) nor an operator character (from the if chain)
      have hws : ((skip_whitespace l).input.get ⟨(skip_whitespace l).position, h⟩).isWhitespace
          = false := by
        rcases hpost with hend | hchar
        · omega
        · exact hchar _ (List.getElem?_eq_getElem h)
      have hop : is_operator ((skip_whitespace l).input.get ⟨(skip_whitespace l).position, h⟩)
          = false := by
        simp only [List.get_eq_getElem] at h1 h2 h3 h4 h5 h6 h7 ⊢
        simp [is_operator, h1, h2, h3, h4, h5, h6, h7]
      rcases read_word_spec (skip_whitespace l) h hws hop with ⟨hi, hp⟩
      exact ⟨hi.trans hin, Or.inr ⟨by omega, hlt⟩⟩
  · rw [dif_neg h]
    refine ⟨hin, Or.inl ⟨rfl, ?_⟩⟩
    dsimp only
    rw [← hin]
    omega

theorem next_token_at_end (l : Lexer) (h : l.input.length ≤ l.position) :
    next_token l = (Token.EOF, l) := by
  have e : skip_whitespace l = l := by
    unfold skip_whitespace
    have e0 : l.input.length - l.position = 0 := by omega
    rw [e0]
    rfl
  unfold next_token
  rw [e, dif_neg (by omega)]

theorem tokensLoop_len (g : Nat) :
    ∀ l, (tokensLoop g l).length ≤ l.input.length - l.position := by
  induction g with
  | zero => intro l; simp [tokensLoop]
  | succ g ih =>
    intro l
    unfold tokensLoop
    dsimp only
    split
    · simp
    · rename_i hne
      have hp := next_token_progress l
      rcases hp.2 with ⟨heof, _⟩ | ⟨hlt, hbound⟩
      · exact absurd heof hne
      · have hih := ih (next_token l).2
        rw [hp.1] at hih
        simp only [List.length_cons]
        omega

end Lexer

/-- C9: tokenization terminates on every finite input.  Each `next_token`
call either returns the end-of-input token with the position at or past the
input's end, or advances the position by at least one character; once the end
is reached, `next_token` keeps returning `EOF` without moving; and the eager
drain `tokens` therefore returns a finite sequence — of length at most the
number of remaining characters — for every input string. -/
theorem c9_tokenization_terminates (l : Lexer) :
    (((Lexer.next_token l).1 = Token.EOF ∧
        l.input.length ≤ (Lexer.next_token l).2.position) ∨
      l.position < (Lexer.next_token l).2.position) ∧
    (l.input.length ≤ l.position → Lexer.next_token l = (Token.EOF, l)) ∧
    (Lexer.tokens l).length ≤ l.input.length - l.position := by
  refine ⟨?_, Lexer.next_token_at_end l, Lexer.tokensLoop_len _ l⟩
  rcases (Lexer.next_token_progress l).2 with h | h
  · exact Or.inl h
  · exact Or.inr h.1

/-- Witness for C9's inner implication, at the empty input: at end of input
`next_token` returns `EOF` and stays put. -/
theorem c9_tokenization_terminates_witness :
    Lexer.next_token (Lexer.new "") = (Token.EOF, Lexer.new "") :=
  (c9_tokenization_terminates (Lexer.new "")).2.1 (by decide)

/-- C2 (code bug, evaluated): `handle_redirect_out` checks for a following
`'<'` — not `'>'` — before emitting `Append`, so the two-character input
`">>"` tokenizes as two `Overwrite` tokens instead of one `Append` token;
instead `"><"` yields `Append`.  (`">&"` does yield `DuplicateOut` as
claimed.)  This contradicts the source's own comments (`Append, // >>`). -/
theorem c2_append_tokenization_bug :
    Lexer.tokens (Lexer.new ">>") =
      [Token.RedirectOperator RedirectOperator.Overwrite,
       Token.RedirectOperator RedirectOperator.Overwrite] ∧
    Lexer.tokens (Lexer.new "><") = [Token.RedirectOperator RedirectOperator.Append] ∧
    Lexer.tokens (Lexer.new ">&") = [Token.RedirectOperator RedirectOperator.DuplicateOut] :=
  ⟨by decide, by decide, by decide⟩

namespace P

theorem redirect_target_of_fd (fd : Option Nat) (rt : RedirectOperator)
    (ts : List Token) (r : Redirection) (rest : List Token)
    (h : redirect_target_of fd rt ts = Except.ok (r, rest)) : r.fd = fd := by
  unfold redirect_target_of at h
  split at h <;>
    first
      | (simp only [Except.ok.injEq, Prod.mk.injEq] at h
         exact h.1 ▸ rfl)
      | simp at h

theorem parse_redirection_fd_some (ts : List Token) (r : Redirection) (rest : List Token)
    (h : parse_redirection ts = Except.ok (r, rest)) : ∃ n, r.fd = some n := by
  unfold parse_redirection at h
  repeat' split at h
  all_goals first
    | exact ⟨_, redirect_target_of_fd _ _ _ _ _ h⟩
    | simp at h

theorem parse_command_loop_reds (g : Nat) :
    ∀ words reds ts w r rest, (∀ x ∈ reds, ∃ n, x.fd = some n) →
      parse_command_loop g words reds ts = Except.ok (w, r, rest) →
      ∀ x ∈ r, ∃ n, x.fd = some n := by
  induction g with
  | zero => intro words reds ts w r rest _ h; simp [parse_command_loop] at h
  | succ g ih =>
    intro words reds ts w r rest hreds h
    unfold parse_command_loop at h
    split at h
    · exact ih _ _ _ _ _ _ hreds h
    · exact ih _ _ _ _ _ _ hreds h
    · exact ih _ _ _ _ _ _ hreds h
    · rename_i op rest0
      split at h
      · rename_i red ts2 hred
        refine ih _ _ _ _ _ _ ?_ h
        intro x hx
        rcases List.mem_append.mp hx with hx | hx
        · exact hreds x hx
        · rw [List.mem_singleton.mp hx]
          exact parse_redirection_fd_some _ _ _ hred
      · exact absurd h (by simp)
    · simp only [Except.ok.injEq, Prod.mk.injEq] at h
      obtain ⟨-, hr, -⟩ := h
      exact hr ▸ hreds

theorem parse_command_reds (g : Nat) (ts : List Token) (c : Command) (rest : List Token)
    (h : parse_command g ts = Except.ok (c, rest)) :
    ∀ x ∈ allReds c, ∃ n, x.fd = some n := by
  unfold parse_command at h
  split at h
  · exact absurd h (by simp)
  · rename_i words reds rest0 hloop
    split at h
    · exact absurd h (by simp)
    · simp only [Except.ok.injEq, Prod.mk.injEq] at h
      obtain ⟨hc, -⟩ := h
      intro x hx
      rw [← hc] at hx
      simp only [allReds] at hx
      exact parse_command_loop_reds g _ _ _ _ _ _ (by simp) hloop x hx

theorem parse_pipeline_loop_reds (g : Nat) :
    ∀ left ts c rest, (∀ x ∈ allReds left, ∃ n, x.fd = some n) →
      parse_pipeline_loop g left ts = Except.ok (c, rest) →
      ∀ x ∈ allReds c, ∃ n, x.fd = some n := by
  induction g with
  | zero => intro left ts c rest _ h; simp [parse_pipeline_loop] at h
  | succ g ih =>
    intro left ts c rest hleft h
    unfold parse_pipeline_loop at h
    split at h
    · rename_i rest0
      split at h
      · exact absurd h (by simp)
      · rename_i right ts2 hright
        refine ih _ _ _ _ ?_ h
        intro x hx
        simp only [allReds] at hx
        rcases List.mem_append.mp hx with hx | hx
        · exact hleft x hx
        · exact parse_command_reds g _ _ _ hright x hx
    · simp only [Except.ok.injEq, Prod.mk.injEq] at h
      obtain ⟨hc, -⟩ := h
      exact hc ▸ hleft

theorem parse_pipeline_reds (g : Nat) (ts : List Token) (c : Command) (rest : List Token)
    (h : parse_pipeline g ts = Except.ok (c, rest)) :
    ∀ x ∈ allReds c, ∃ n, x.fd = some n := by
  unfold parse_pipeline at h
  split at h
  · exact absurd h (by simp)
  · rename_i left ts1 hleft
    exact parse_pipeline_loop_reds g _ _ _ _ (parse_command_reds g _ _ _ hleft) h

theorem mem_allRedsList (x : Redirection) :
    ∀ cmds : List Command, x ∈ allRedsList cmds ↔ ∃ c ∈ cmds, x ∈ allReds c := by
  intro cmds
  induction cmds with
  | nil => simp [allRedsList]
  | cons c cs ih => simp [allRedsList, List.mem_append, ih]

theorem finishList_reds (cmds : List Command) (seps : List ListSeparator)
    (ts : List Token) (c : Command) (rest : List Token)
    (hcmds : ∀ cmd ∈ cmds, ∀ x ∈ allReds cmd, ∃ n, x.fd = some n)
    (h : finishList cmds seps ts = Except.ok (c, rest)) :
    ∀ x ∈ allReds c, ∃ n, x.fd = some n := by
  unfold finishList at h
  split at h
  · rename_i c0
    simp only [Except.ok.injEq, Prod.mk.injEq] at h
    obtain ⟨hc, -⟩ := h
    exact hc ▸ hcmds c0 (List.mem_singleton.mpr rfl)
  · simp only [Except.ok.injEq, Prod.mk.injEq] at h
    obtain ⟨hc, -⟩ := h
    intro x hx
    rw [← hc] at hx
    simp only [allReds] at hx
    obtain ⟨cmd, hcmd, hx⟩ := (mem_allRedsList x cmds).mp hx
    exact hcmds cmd hcmd x hx

theorem parse_list_loop_reds (g : Nat) :
    ∀ cmds seps ts c rest,
      (∀ cmd ∈ cmds, ∀ x ∈ allReds cmd, ∃ n, x.fd = some n) →
      parse_list_loop g cmds seps ts = Except.ok (c, rest) →
      ∀ x ∈ allReds c, ∃ n, x.fd = some n := by
  induction g with
  | zero => intro cmds seps ts c rest _ h; simp [parse_list_loop] at h
  | succ g ih =>
    intro cmds seps ts c rest hcmds h
    rcases ts with _ | ⟨t, rest0⟩
    · exact finishList_reds _ _ _ _ _ hcmds h
    · unfold parse_list_loop at h
      split at h
      · split at h
        · exact absurd h (by simp)
        · rename_i c1 ts2 hc1
          refine ih _ _ _ _ _ ?_ h
          intro cmd hcmd
          rcases List.mem_append.mp hcmd with hcmd | hcmd
          · exact hcmds cmd hcmd
          · rw [List.mem_singleton.mp hcmd]
            exact parse_pipeline_reds g _ _ _ hc1
      · exact finishList_reds _ _ _ _ _ hcmds h

end P

/-- C10: every `Redirection` in a successfully parsed command tree carries an
explicit `fd` — the parser always stores the type-derived default itself
before any integer-word override — so the executor's `unwrap_or`
default-derivation branch is never taken: `resolveFd` just returns the stored
descriptor. -/
theorem c10_parsed_fd_explicit (ts : List Token) (c : P.Command)
    (h : P.parse ts = Except.ok c) :
    ∀ r ∈ P.allReds c, ∃ n, r.fd = some n ∧ resolveFd r = n := by
  unfold P.parse at h
  split at h
  · exact absurd h (by simp)
  · rename_i c0 rest0 hlist
    unfold P.parse_list at hlist
    split at hlist
    · exact absurd hlist (by simp)
    · rename_i c1 ts1 hpipe
      have hc0 : c0 = c := by simpa using h
      intro r hr
      have hbase := P.parse_pipeline_reds _ _ _ _ hpipe
      have hall := P.parse_list_loop_reds _ _ _ _ _ _
        (fun cmd hcmd => by
          rw [List.mem_singleton.mp hcmd]
          exact hbase) hlist
      obtain ⟨n, hn⟩ := hall r (hc0 ▸ hr)
      exact ⟨n, hn, by simp [resolveFd, hn]⟩

/-- Witness for C10 at the concrete parse of `cat < f`: descriptor 0 is
stored explicitly and the executor's resolution returns exactly it. -/
theorem c10_parsed_fd_explicit_witness :
    ∃ n, (⟨some 0, RedirectOperator.Input, RedirectTarget.File "f"⟩ : Redirection).fd = some n ∧
      resolveFd ⟨some 0, RedirectOperator.Input, RedirectTarget.File "f"⟩ = n :=
  c10_parsed_fd_explicit
    [Token.Word "cat", Token.RedirectOperator RedirectOperator.Input, Token.Word "f"]
    (P.Command.Simple "cat" []
      [⟨some 0, RedirectOperator.Input, RedirectTarget.File "f"⟩]) rfl
    ⟨some 0, RedirectOperator.Input, RedirectTarget.File "f"⟩ (by simp [P.allReds])

/-- C1 (counterexample): the claim's precedence order And (3) > Or (2) fails.
Parsing the token stream of `a && b || c` yields one flat `List` node holding
the three simple commands side by side with separators `[And, Or]` — no node
of the tree groups `a && b` as a subtree of an or-node, refuting the nested
shape the claimed precedence requires. -/
theorem c1_no_and_over_or_precedence :
    P.parse [Token.Word "a", Token.And, Token.Word "b", Token.Or, Token.Word "c"] =
      Except.ok (P.Command.List
        [P.Command.Simple "a" [] [], P.Command.Simple "b" [] [], P.Command.Simple "c" [] []]
        [P.ListSeparator.And, P.ListSeparator.Or]) ∧
    P.parse [Token.Word "a", Token.And, Token.Word "b", Token.Or, Token.Word "c"] ≠
      Except.ok (P.Command.List
        [P.Command.List [P.Command.Simple "a" [] [], P.Command.Simple "b" [] []]
           [P.ListSeparator.And],
         P.Command.Simple "c" [] []]
        [P.ListSeparator.Or]) := by
  refine ⟨rfl, ?_⟩
  intro h
  rw [show P.parse [Token.Word "a", Token.And, Token.Word "b", Token.Or, Token.Word "c"] =
      Except.ok (P.Command.List
        [P.Command.Simple "a" [] [], P.Command.Simple "b" [] [], P.Command.Simple "c" [] []]
        [P.ListSeparator.And, P.ListSeparator.Or]) from rfl] at h
  simp at h

/-- C1 (amended): the pipe does bind tighter than the list separators, but
`&&`, `||`, `;` and `&` are all parsed at one single precedence level into a
flat `List` of pipelines with side-by-side separators, left to right, with no
grouping among them.  Stated for arbitrary words: `w1 | w2 && w3` makes the
pipe node one element of the flat list, while `w1 && w2 || w3` and
`w1 ; w2 & w3` produce flat three-command lists. -/
theorem c1_pipe_tighter_flat_separators (w1 w2 w3 : String) :
    P.parse [Token.Word w1, Token.Pipe, Token.Word w2, Token.And, Token.Word w3] =
      Except.ok (P.Command.List
        [P.Command.Pipeline (P.Command.Simple w1 [] []) (P.Command.Simple w2 [] []),
         P.Command.Simple w3 [] []]
        [P.ListSeparator.And]) ∧
    P.parse [Token.Word w1, Token.And, Token.Word w2, Token.Or, Token.Word w3] =
      Except.ok (P.Command.List
        [P.Command.Simple w1 [] [], P.Command.Simple w2 [] [], P.Command.Simple w3 [] []]
        [P.ListSeparator.And, P.ListSeparator.Or]) ∧
    P.parse [Token.Word w1, Token.Semicolon, Token.Word w2, Token.Background, Token.Word w3] =
      Except.ok (P.Command.List
        [P.Command.Simple w1 [] [], P.Command.Simple w2 [] [], P.Command.Simple w3 [] []]
        [P.ListSeparator.Semicolon, P.ListSeparator.Background]) :=
  ⟨rfl, rfl, rfl⟩

/-- C5: the redirection sub-parse consumes the operator, sets the target
descriptor to 0 for input-like operators (Input, HereDoc, DuplicateIn) and 1
for output-like ones (Overwrite, Append, DuplicateOut), overrides it exactly
when the immediately following token is a word that parses as a non-negative
(32-bit) integer — consuming that word — and then requires a word or quoted
token as the file target, failing with the parse error "Invalid redirect
target" on any other token. -/
theorem c5_parse_redirection_spec (op : RedirectOperator) (ts : List Token) :
    P.parse_redirection (Token.RedirectOperator op :: ts) =
      match ts with
      | Token.Word n :: ts2 =>
        (match parseU32 n with
         | some k =>
           (match ts2 with
            | Token.Word f :: ts3 =>
              Except.ok ({ fd := some k, operator := op, target := RedirectTarget.File f }, ts3)
            | Token.SingleQuoted f :: ts3 =>
              Except.ok ({ fd := some k, operator := op, target := RedirectTarget.File f }, ts3)
            | Token.DoubleQuoted f :: ts3 =>
              Except.ok ({ fd := some k, operator := op, target := RedirectTarget.File f }, ts3)
            | _ => Except.error "Invalid redirect target")
         | none =>
           Except.ok ({ fd := some (specDefaultFd op), operator := op,
                        target := RedirectTarget.File n }, ts2))
      | Token.SingleQuoted f :: ts2 =>
        Except.ok ({ fd := some (specDefaultFd op), operator := op,
                     target := RedirectTarget.File f }, ts2)
      | Token.DoubleQuoted f :: ts2 =>
        Except.ok ({ fd := some (specDefaultFd op), operator := op,
                     target := RedirectTarget.File f }, ts2)
      | _ => Except.error "Invalid redirect target" := by
  cases op <;>
    (rcases ts with _ | ⟨t, rest⟩
     · rfl
     · rcases t with n | s | s | _ | _ | _ | _ | _ | op2 | _ | _ | _ <;> rfl)

/-- C3: executing a `Binary` command with the `And` operator evaluates the
left sub-command first; if the left returns status 0 the whole execution is
exactly the execution of the right sub-command from the left's post-state
(whose result is returned); if the left's status is non-zero, that status and
the left's post-state are returned unchanged — the right sub-command is never
evaluated (no event of it, no state change by it). -/
theorem c3_and_short_circuit (env : Env) (ctx : Proc) (l r : Command) (s : St)
    (lc : Int) (s1 : St) (h : exec env ctx l s = (Res.status lc, s1)) :
    (lc = 0 → exec env ctx (Command.Binary l r Operator.And) s = exec env ctx r s1) ∧
    (lc ≠ 0 → exec env ctx (Command.Binary l r Operator.And) s = (Res.status lc, s1)) := by
  constructor <;> intro hlc <;> simp [exec, h, hlc]

/-- Witness for C3: `cd /nope && echo hi` under `env0` — the left fails with
status 1 and the whole command returns 1 with only the left's error event;
`echo` never ran. -/
theorem c3_and_short_circuit_witness :
    exec env0 ctx0 (Command.Binary (Command.Simple "cd" ["/nope"] [])
        (Command.Simple "echo" ["hi"] []) Operator.And) st0 =
      (Res.status 1, { st0 with events := [Event.err "cd: /nope"] }) :=
  (c3_and_short_circuit env0 ctx0 (Command.Simple "cd" ["/nope"] [])
      (Command.Simple "echo" ["hi"] []) st0 1
      { st0 with events := [Event.err "cd: /nope"] } (by decide)).2 (by decide)

/-- C4: executing a `Binary` command with the `Semicolon` operator always
evaluates both sub-commands, left before right: whatever status the left
returns, the whole execution equals the execution of the right sub-command
from the left's post-state, so the left's status is discarded and the
right's result is returned. -/
theorem c4_semicolon_sequencing (env : Env) (ctx : Proc) (l r : Command) (s : St)
    (lc : Int) (s1 : St) (h : exec env ctx l s = (Res.status lc, s1)) :
    exec env ctx (Command.Binary l r Operator.Semicolon) s = exec env ctx r s1 := by
  simp [exec, h]

/-- Witness for C4: `cd /nope ; echo hi` — the left fails with status 1, yet
`echo hi` runs and the whole command returns its status 0 with both events in
order. -/
theorem c4_semicolon_sequencing_witness :
    exec env0 ctx0 (Command.Binary (Command.Simple "cd" ["/nope"] [])
        (Command.Simple "echo" ["hi"] []) Operator.Semicolon) st0 =
      (Res.status 0, { st0 with events := [Event.err "cd: /nope", Event.out "hi"] }) :=
  (c4_semicolon_sequencing env0 ctx0 (Command.Simple "cd" ["/nope"] [])
      (Command.Simple "echo" ["hi"] []) st0 1
      { st0 with events := [Event.err "cd: /nope"] } (by decide)).trans (by decide)

/-- C6 (code bug, evaluated): `cd` with no argument passes the literal
string `"~"` to the OS chdir (`args.get(0).unwrap_or("~")` with no tilde
expansion), so in a filesystem with no entry literally named `~` it fails:
status 1, message on the error stream, working directory unchanged — even
though the user's home (`/home/user` in `env0`) exists and is the claimed
target.  The error half of the claim does hold, as the third conjunct shows
for a non-existent path: status 1, error message, directory unchanged. -/
theorem c6_cd_tilde_bug :
    exec env0 ctx0 (Command.Simple "cd" [] []) st0 =
      (Res.status 1, { st0 with events := [Event.err "cd: ~"] }) ∧
    env0.chdir st0.cwd "/home/user" = some "/home/user" ∧
    exec env0 ctx0 (Command.Simple "cd" ["/nope"] []) st0 =
      (Res.status 1, { st0 with events := [Event.err "cd: /nope"] }) :=
  ⟨by decide, by decide, by decide⟩

/-- C8 (code bug, evaluated): running `ls & echo done` from the shell
process (pid 10, pgid 10), the background child (pid 11, which keeps group
10) forks a grandchild (pid 12) to exec `ls`; that grandchild moves to its
own fresh process group and both it (`tcsetpgrp(0, getpid())`) and its parent
— the background child — (`tcsetpgrp(0, pid)`) set the terminal's foreground
group to 12, a process group inside the backgrounded subtree, refuting the
claim that the background child's execution never acquires the terminal.  The
trace lists the two `setFg 12` events between the background fork and the
parent's `echo`. -/
theorem c8_background_terminal_bug :
    exec env0 ctx0 (Command.Binary (Command.Simple "ls" [] [])
        (Command.Simple "echo" ["done"] []) Operator.Background) st0 =
      (Res.status 0,
       { st0 with
         nextPid := 13,
         events := [Event.forked 11, Event.forked 12, Event.setFg 12,
                    Event.execExternal "ls" [], Event.setFg 12, Event.setFg 10,
                    Event.setFg 10, Event.out "done"] }) ∧
    Event.setFg 12 ∈
      (exec env0 ctx0 (Command.Binary (Command.Simple "ls" [] [])
        (Command.Simple "echo" ["done"] []) Operator.Background) st0).2.events ∧
    ctx0.pgid ≠ 12 :=
  ⟨by decide, by decide, by decide⟩

/-! ## File-descriptor table lemmas and the builtin save/restore proof -/

theorem tget_pad (t : FdTable) (n i : Nat) : tget (pad t n) i = tget t i := by
  unfold tget pad
  rcases Nat.lt_or_ge i t.length with h | h
  · simp [List.getD_eq_getElem?_getD, List.getElem?_append_left h]
  · rw [List.getD_eq_getElem?_getD, List.getD_eq_getElem?_getD,
      List.getElem?_append_right h, List.getElem?_eq_none h]
    rw [List.getElem?_replicate]
    split <;> rfl

theorem pad_length_le (t : FdTable) (n : Nat) : n ≤ (pad t n).length := by
  simp [pad, List.length_append, List.length_replicate]
  omega

theorem tget_tset_self (t : FdTable) (i : Nat) (v : Option Nat) :
    tget (tset t i v) i = v := by
  unfold tset tget
  have hlen : i < (pad t (i + 1)).length := Nat.lt_of_lt_of_le (Nat.lt_succ_self i) (pad_length_le t (i + 1))
  simp [List.getD_eq_getElem?_getD, List.getElem?_set_self hlen]

theorem tget_tset_ne (t : FdTable) (i : Nat) (v : Option Nat) (j : Nat) (hij : i ≠ j) :
    tget (tset t i v) j = tget t j := by
  unfold tset
  have : tget ((pad t (i + 1)).set i v) j = tget (pad t (i + 1)) j := by
    simp [tget, List.getD_eq_getElem?_getD, List.getElem?_set_ne hij]
  rw [this, tget_pad]

theorem tget_lowestFree (t : FdTable) : tget t (lowestFree t) = none := by
  unfold lowestFree
  cases hf : (List.range (t.length + 1)).find? (fun i => (tget t i).isNone) with
  | some i =>
    have hp := List.find?_some hf
    simp only [Option.getD_some]
    simpa using hp
  | none =>
    simp only [Option.getD_none]
    unfold tget
    rw [List.getD_eq_getElem?_getD, List.getElem?_eq_none (Nat.le_refl _)]
    rfl

theorem tget_closeT_self (t : FdTable) (i : Nat) : tget (closeT t i) i = none :=
  tget_tset_self t i none

theorem tget_closeT_ne (t : FdTable) (i j : Nat) (h : i ≠ j) :
    tget (closeT t i) j = tget t j :=
  tget_tset_ne t i none j h

theorem tget_dup2T_ne (t : FdTable) (src dst j : Nat) (h : dst ≠ j) :
    tget (dup2T t src dst) j = tget t j := by
  unfold dup2T
  cases tget t src with
  | none => rfl
  | some v => exact tget_tset_ne t dst (some v) j h

theorem tget_dup2T_self (t : FdTable) (src dst : Nat) (h : tget t src ≠ none) :
    tget (dup2T t src dst) dst = tget t src := by
  unfold dup2T
  cases hs : tget t src with
  | none => exact absurd hs h
  | some v => exact tget_tset_self t dst (some v)

theorem dupT_eq_some (t : FdTable) (i : Nat) (h : tget t i ≠ none) :
    dupT t i = some (lowestFree t, tset t (lowestFree t) (tget t i)) := by
  unfold dupT
  cases hs : tget t i with
  | none => exact absurd hs h
  | some v => rfl

theorem applyRed_preserves (env : Env) (t : FdTable) (nh : Nat) (r : Redirection)
    (t1 : FdTable) (nh1 : Nat) (h : applyRed env t nh r = Except.ok (t1, nh1))
    (j : Nat) (hj : j ≠ resolveFd r) : tget t1 j = tget t j := by
  unfold applyRed at h
  repeat' split at h
  all_goals first
    | (simp only [Except.ok.injEq, Prod.mk.injEq] at h
       obtain ⟨ht, -⟩ := h
       subst ht
       first
         | exact tget_dup2T_ne _ _ _ _ (fun he => hj he.symm)
         | (by_cases hz : j = lowestFree t
            · rw [hz, tget_closeT_self, tget_lowestFree]
            · rw [tget_closeT_ne _ _ _ (fun he => hz he.symm),
                tget_dup2T_ne _ _ _ _ (fun he => hj he.symm),
                tget_tset_ne _ _ _ _ (fun he => hz he.symm)]))
    | simp at h

theorem applyReds_preserves (env : Env) :
    ∀ (reds : List Redirection) (t : FdTable) (nh : Nat) errOpt t2 nh2,
      applyReds env reds t nh = (errOpt, t2, nh2) →
      ∀ j, (∀ r ∈ reds, j ≠ resolveFd r) → tget t2 j = tget t j := by
  intro reds
  induction reds with
  | nil =>
    intro t nh errOpt t2 nh2 h j _
    simp only [applyReds, Prod.mk.injEq] at h
    rw [h.2.1]
  | cons r rs ih =>
    intro t nh errOpt t2 nh2 h j hj
    unfold applyReds at h
    split at h
    · simp only [Prod.mk.injEq] at h
      rw [h.2.1]
    · rename_i t1 nh1 hred
      rw [ih _ _ _ _ _ h j (fun x hx => hj x (List.mem_cons_of_mem r hx)),
        applyRed_preserves env t nh r t1 nh1 hred j (hj r (List.mem_cons_self r rs))]


theorem saveLoop_ok (t0 : FdTable) :
    ∀ (reds : List Redirection) (t : FdTable) (saved : List (Nat × Nat)),
      SaveInv t0 t saved →
      (∀ r ∈ reds, tget t0 (resolveFd r) ≠ none) →
      ∃ saved' t',
        saveLoop reds t saved = Except.ok (saved', t') ∧
        SaveInv t0 t' saved' ∧
        (∀ p ∈ saved, p ∈ saved') ∧
        (∀ r ∈ reds, resolveFd r ∈ saved'.map Prod.fst) := by
  intro reds
  induction reds with
  | nil =>
    intro t saved inv _
    exact ⟨saved, t, rfl, inv, fun p hp => hp, by simp⟩
  | cons r rs ih =>
    intro t saved inv hopen
    by_cases hl : (saved.lookup (resolveFd r)).isSome = true
    · obtain ⟨saved', t', hrun, hinv', hsub, hcover⟩ :=
        ih t saved inv (fun x hx => hopen x (List.mem_cons_of_mem r hx))
      refine ⟨saved', t', ?_, hinv', hsub, ?_⟩
      · simp only [saveLoop, hl, if_true]
        exact hrun
      · intro r' hr'
        rcases List.mem_cons.mp hr' with he | hr'
        · obtain ⟨p, hp, hpe⟩ := List.lookup_isSome_iff.mp hl
          rw [he]
          have : resolveFd r = p.1 := by simpa using hpe
          exact this ▸ List.mem_map.mpr ⟨p, hsub p hp, rfl⟩
        · exact hcover r' hr'
    · have hopen_r : tget t0 (resolveFd r) ≠ none := hopen r (List.mem_cons_self r rs)
      have hopen_t : tget t (resolveFd r) ≠ none := by
        rw [inv.openPreserved _ hopen_r]
        exact hopen_r
      have hdup := dupT_eq_some t (resolveFd r) hopen_t
      have hz_free : tget t (lowestFree t) = none := tget_lowestFree t
      have hz0 : tget t0 (lowestFree t) = none := by
        by_contra h0
        exact h0 ((inv.openPreserved _ h0) ▸ hz_free)
      have hfd_not_key : resolveFd r ∉ saved.map Prod.fst := by
        intro hmem
        apply hl
        obtain ⟨p, hp, hpe⟩ := List.mem_map.mp hmem
        exact List.lookup_isSome_iff.mpr ⟨p, hp, by simp [hpe]⟩
      have hz_not_slot : lowestFree t ∉ saved.map Prod.snd := by
        intro hmem
        obtain ⟨p, hp, hpe⟩ := List.mem_map.mp hmem
        have he := inv.entries p hp
        rw [hpe] at he
        exact absurd hz_free (he.2.1 ▸ he.2.2)
      have inv1 : SaveInv t0 (tset t (lowestFree t) (tget t (resolveFd r)))
          (saved ++ [(resolveFd r, lowestFree t)]) := by
        constructor
        · intro p hp
          rcases List.mem_append.mp hp with hp | hp
          · have he := inv.entries p hp
            have hne : lowestFree t ≠ p.2 := by
              intro heq
              rw [← heq] at he
              exact absurd hz_free (he.2.1 ▸ he.2.2)
            exact ⟨he.1, by rw [tget_tset_ne _ _ _ _ hne]; exact he.2.1, he.2.2⟩
          · rw [List.mem_singleton.mp hp]
            refine ⟨hz0, ?_, hopen_r⟩
            rw [tget_tset_self]
            exact inv.openPreserved _ hopen_r
        · simp only [List.map_append, List.map_cons, List.map_nil]
          exact List.Nodup.append inv.slotsNodup (List.nodup_singleton _)
            (by simpa using fun hmem => hz_not_slot hmem)
        · simp only [List.map_append, List.map_cons, List.map_nil]
          exact List.Nodup.append inv.keysNodup (List.nodup_singleton _)
            (by simpa using fun hmem => hfd_not_key hmem)
        · intro j hj
          have hne : lowestFree t ≠ j := by
            intro heq
            rw [← heq] at hj
            exact hj hz0
          rw [tget_tset_ne _ _ _ _ hne]
          exact inv.openPreserved j hj
        · intro j hj
          by_cases hjz : j = lowestFree t
          · right
            simp [hjz]
          · rw [tget_tset_ne _ _ _ _ (fun he => hjz he.symm)] at hj
            rcases inv.newOnlySlots j hj with h0 | hslot
            · exact Or.inl h0
            · right
              simp only [List.map_append, List.map_cons, List.map_nil]
              exact List.mem_append.mpr (Or.inl hslot)
      obtain ⟨saved', t', hrun, hinv', hsub, hcover⟩ :=
        ih _ _ inv1 (fun x hx => hopen x (List.mem_cons_of_mem r hx))
      refine ⟨saved', t', ?_, hinv', ?_, ?_⟩
      · simp only [saveLoop, hl, if_false, Bool.false_eq_true, hdup]
        exact hrun
      · intro p hp
        exact hsub p (List.mem_append.mpr (Or.inl hp))
      · intro r' hr'
        rcases List.mem_cons.mp hr' with he | hr'
        · rw [he]
          have hmem : (resolveFd r, lowestFree t) ∈ saved' :=
            hsub _ (List.mem_append.mpr (Or.inr (List.mem_singleton.mpr rfl)))
          exact List.mem_map.mpr ⟨_, hmem, rfl⟩
        · exact hcover r' hr'

theorem restoreAll_spec :
    ∀ (saved : List (Nat × Nat)) (t : FdTable),
      (saved.map Prod.snd).Nodup →
      (saved.map Prod.fst).Nodup →
      (∀ p ∈ saved, ∀ q ∈ saved, p.2 ≠ q.1) →
      (∀ p ∈ saved, tget t p.2 ≠ none) →
      (∀ p ∈ saved, tget (restoreAll saved t) p.1 = tget t p.2) ∧
      (∀ p ∈ saved, tget (restoreAll saved t) p.2 = none) ∧
      (∀ j, j ∉ saved.map Prod.fst → j ∉ saved.map Prod.snd →
        tget (restoreAll saved t) j = tget t j) := by
  intro saved
  induction saved with
  | nil =>
    intro t _ _ _ _
    exact ⟨by simp, by simp, fun j _ _ => rfl⟩
  | cons hd rest ih =>
    intro t hsnd hfst hdisj hpres
    obtain ⟨fd, z⟩ := hd
    have hhd : (fd, z) ∈ (fd, z) :: rest := List.mem_cons_self _ _
    have hz_open : tget t z ≠ none := hpres _ hhd
    have hzfd : z ≠ fd := hdisj _ hhd _ hhd
    have ht'_z : tget (closeT (dup2T t z fd) z) z = none := tget_closeT_self _ _
    have ht'_fd : tget (closeT (dup2T t z fd) z) fd = tget t z := by
      rw [tget_closeT_ne _ _ _ hzfd, tget_dup2T_self _ _ _ hz_open]
    have ht'_other : ∀ j, j ≠ z → j ≠ fd → tget (closeT (dup2T t z fd) z) j = tget t j := by
      intro j hjz hjfd
      rw [tget_closeT_ne _ _ _ (fun he => hjz he.symm),
        tget_dup2T_ne _ _ _ _ (fun he => hjfd he.symm)]
    have hz_not_restslot : z ∉ rest.map Prod.snd := by
      simp only [List.map_cons, List.nodup_cons] at hsnd
      exact hsnd.1
    have hfd_not_restkey : fd ∉ rest.map Prod.fst := by
      simp only [List.map_cons, List.nodup_cons] at hfst
      exact hfst.1
    have hrest_slot_ne_fd : ∀ q ∈ rest, q.2 ≠ fd :=
      fun q hq => hdisj _ (List.mem_cons_of_mem _ hq) _ hhd
    have hrest_key_ne_z : ∀ q ∈ rest, z ≠ q.1 :=
      fun q hq => hdisj _ hhd _ (List.mem_cons_of_mem _ hq)
    have hsnd' : (rest.map Prod.snd).Nodup := by
      simp only [List.map_cons, List.nodup_cons] at hsnd
      exact hsnd.2
    have hfst' : (rest.map Prod.fst).Nodup := by
      simp only [List.map_cons, List.nodup_cons] at hfst
      exact hfst.2
    have hdisj' : ∀ p ∈ rest, ∀ q ∈ rest, p.2 ≠ q.1 :=
      fun p hp q hq => hdisj _ (List.mem_cons_of_mem _ hp) _ (List.mem_cons_of_mem _ hq)
    have hpres' : ∀ p ∈ rest, tget (closeT (dup2T t z fd) z) p.2 ≠ none := by
      intro p hp
      have hne_z : p.2 ≠ z := by
        intro he
        exact hz_not_restslot (he ▸ List.mem_map.mpr ⟨p, hp, rfl⟩)
      rw [ht'_other _ hne_z (hrest_slot_ne_fd p hp)]
      exact hpres _ (List.mem_cons_of_mem _ hp)
    obtain ⟨ihA, ihB, ihC⟩ := ih (closeT (dup2T t z fd) z) hsnd' hfst' hdisj' hpres'
    have hres : restoreAll ((fd, z) :: rest) t = restoreAll rest (closeT (dup2T t z fd) z) := rfl
    refine ⟨?_, ?_, ?_⟩
    · intro p hp
      rcases List.mem_cons.mp hp with he | hp
      · rw [he, hres]
        have hnk : fd ∉ rest.map Prod.fst := hfd_not_restkey
        have hns : fd ∉ rest.map Prod.snd := by
          intro hmem
          obtain ⟨q, hq, hqe⟩ := List.mem_map.mp hmem
          exact hrest_slot_ne_fd q hq hqe
        rw [ihC fd hnk hns, ht'_fd]
      · rw [hres, ihA p hp]
        have hne_z : p.2 ≠ z := by
          intro he
          exact hz_not_restslot (he ▸ List.mem_map.mpr ⟨p, hp, rfl⟩)
        exact ht'_other _ hne_z (hrest_slot_ne_fd p hp)
    · intro p hp
      rcases List.mem_cons.mp hp with he | hp
      · rw [he, hres]
        have hnk : z ∉ rest.map Prod.fst := by
          intro hmem
          obtain ⟨q, hq, hqe⟩ := List.mem_map.mp hmem
          exact hrest_key_ne_z q hq hqe.symm
        rw [ihC z hnk hz_not_restslot, ht'_z]
      · rw [hres]
        exact ihB p hp
    · intro j hjk hjs
      simp only [List.map_cons, List.mem_cons, not_or] at hjk hjs
      rw [hres, ihC j hjk.2 hjs.2, ht'_other j (fun he => hjs.1 he) (fun he => hjk.1 he)]

theorem runBuiltin_table (env : Env) (exe : String) (args : List String) (s : St) :
    (runBuiltin env exe args s).2.table = s.table := by
  unfold runBuiltin
  split_ifs
  · dsimp only
    split <;> rfl
  all_goals rfl

theorem restore_after_apply (env : Env) (t0 t1 t2 : FdTable) (reds : List Redirection)
    (saved : List (Nat × Nat)) (nh nh2 : Nat) (errOpt : Option String)
    (hinv : SaveInv t0 t1 saved)
    (hcover : ∀ r ∈ reds, resolveFd r ∈ saved.map Prod.fst)
    (happly : applyReds env reds t1 nh = (errOpt, t2, nh2)) :
    ∀ fd, tget (restoreAll saved t2) fd = tget t0 fd := by
  have hdisj : ∀ p ∈ saved, ∀ q ∈ saved, p.2 ≠ q.1 := by
    intro p hp q hq he
    have hep := hinv.entries p hp
    have heq := hinv.entries q hq
    rw [he] at hep
    exact heq.2.2 hep.1
  have hslot_ne_ref : ∀ p ∈ saved, ∀ r ∈ reds, p.2 ≠ resolveFd r := by
    intro p hp r hr
    obtain ⟨q, hq, hqe⟩ := List.mem_map.mp (hcover r hr)
    rw [← hqe]
    exact hdisj p hp q hq
  have hslots_t2 : ∀ p ∈ saved, tget t2 p.2 = tget t0 p.1 := by
    intro p hp
    rw [applyReds_preserves env reds t1 nh errOpt t2 nh2 happly p.2 (hslot_ne_ref p hp)]
    exact (hinv.entries p hp).2.1
  have hpres : ∀ p ∈ saved, tget t2 p.2 ≠ none := by
    intro p hp
    rw [hslots_t2 p hp]
    exact (hinv.entries p hp).2.2
  obtain ⟨hA, hB, hC⟩ :=
    restoreAll_spec saved t2 hinv.slotsNodup hinv.keysNodup hdisj hpres
  intro fd
  by_cases hk : fd ∈ saved.map Prod.fst
  · obtain ⟨p, hp, hpe⟩ := List.mem_map.mp hk
    rw [← hpe, hA p hp, hslots_t2 p hp]
  · by_cases hs : fd ∈ saved.map Prod.snd
    · obtain ⟨p, hp, hpe⟩ := List.mem_map.mp hs
      rw [← hpe, hB p hp, (hinv.entries p hp).1]
    · rw [hC fd hk hs]
      have hfd_ref : ∀ r ∈ reds, fd ≠ resolveFd r := by
        intro r hr he
        exact hk (he ▸ hcover r hr)
      rw [applyReds_preserves env reds t1 nh errOpt t2 nh2 happly fd hfd_ref]
      by_cases h0 : tget t0 fd = none
      · rw [h0]
        by_contra h1
        rcases hinv.newOnlySlots fd h1 with h2 | h2
        · exact h2 h0
        · exact hs h2
      · exact hinv.openPreserved fd h0

/-- C7 (amended): for every builtin `Simple` command whose redirections all
target descriptors that are open in the initial table, the executor saves
every target descriptor aside, applies the redirections, runs the builtin
body, and restores every saved descriptor — so whenever the execution
returns a status (every path except the `exit` builtin, including the
redirection-error path), the shell's descriptor table is pointwise the same
after the builtin as before it.  The openness hypothesis is necessary: as the
collision evaluation below shows, a closed target descriptor can collide
with a freshly allocated save slot. -/
theorem c7_builtin_restores_table (env : Env) (ctx : Proc) (exe : String)
    (args : List String) (reds : List Redirection) (s : St)
    (hb : isBuiltinName exe = true)
    (hopen : ∀ r ∈ reds, tget s.table (resolveFd r) ≠ none)
    (n : Int) (s' : St)
    (hrun : exec env ctx (Command.Simple exe args reds) s = (Res.status n, s')) :
    ∀ fd, tget s'.table fd = tget s.table fd := by
  rw [show exec env ctx (Command.Simple exe args reds) s = execBuiltin env exe args reds s by
    simp [exec, hb]] at hrun
  have inv0 : SaveInv s.table s.table [] :=
    ⟨by simp, by simp, by simp, fun j _ => rfl, fun j h => Or.inl h⟩
  obtain ⟨saved, t1, hsave, hinv, -, hcover⟩ := saveLoop_ok s.table reds s.table [] inv0 hopen
  unfold execBuiltin at hrun
  split at hrun
  · rename_i t1' herr
    rw [hsave] at herr
    simp at herr
  · rename_i saved0 t10 hok
    rw [hsave] at hok
    simp only [Except.ok.injEq, Prod.mk.injEq] at hok
    obtain ⟨hsv, ht1⟩ := hok
    subst hsv
    subst ht1
    split at hrun
    · rename_i e t2 nh2 happly
      simp only [Prod.mk.injEq] at hrun
      obtain ⟨-, hs'⟩ := hrun
      rw [← hs']
      intro fd
      exact restore_after_apply env s.table t1 t2 reds saved s.nextHandle nh2 (some e)
        hinv hcover happly fd
    · rename_i t2 nh2 happly
      dsimp only at hrun
      split at hrun
      · simp at hrun
      · rename_i n0 hstat
        simp only [Prod.mk.injEq] at hrun
        obtain ⟨-, hs'⟩ := hrun
        rw [← hs']
        intro fd
        simp only [runBuiltin_table]
        exact restore_after_apply env s.table t1 t2 reds saved s.nextHandle nh2 none
          hinv hcover happly fd

/-- C7 (counterexample): with descriptors 0-4 open and the builtin `echo hi`
carrying redirections that target descriptors 3 (open) and 5 (closed), the
save loop's `dup(3)` lands on slot 5 — exactly the second redirection's
target — so saving 5 afterwards captures the wrong entry, and the restore
loop (HashMap iteration modelled as insertion order) leaves the table
changed on the *success* path: descriptor 3 ends up holding the second
redirect file's handle (101) instead of its original 93, and descriptor 5
ends up open though it was closed.  This refutes the claim that the
descriptor table is always the same after the builtin completes. -/
theorem c7_restore_collision :
    (exec env0 ctx0 (Command.Simple "echo" ["hi"] redsC7) st0).1 = Res.status 0 ∧
    (exec env0 ctx0 (Command.Simple "echo" ["hi"] redsC7) st0).2.table =
      [some 90, some 91, some 92, some 101, some 94, some 93, none, none] ∧
    tget (exec env0 ctx0 (Command.Simple "echo" ["hi"] redsC7) st0).2.table 3 ≠
      tget st0.table 3 ∧
    tget (exec env0 ctx0 (Command.Simple "echo" ["hi"] redsC7) st0).2.table 5 ≠
      tget st0.table 5 :=
  ⟨by decide, by decide, by decide, by decide⟩

/-- Witness for C7 (amended) at `echo hi > f` (descriptor 1 open in `st0`):
descriptor 1 holds the same entry after the builtin as before. -/
theorem c7_builtin_restores_table_witness :
    tget (exec env0 ctx0 (Command.Simple "echo" ["hi"]
        [⟨some 1, RedirectOperator.Overwrite, RedirectTarget.File "f"⟩]) st0).2.table 1 =
      tget st0.table 1 := by
  have h := c7_builtin_restores_table env0 ctx0 "echo" ["hi"]
    [⟨some 1, RedirectOperator.Overwrite, RedirectTarget.File "f"⟩] st0 rfl (by decide) 0
    { table := [some 90, some 91, some 92, some 93, some 94, none, none], cwd := "/",
      nextHandle := 101, nextPid := 11, events := [Event.out "hi"] } (by decide) 1
  rw [show (exec env0 ctx0 (Command.Simple "echo" ["hi"]
      [⟨some 1, RedirectOperator.Overwrite, RedirectTarget.File "f"⟩]) st0).2 =
    { table := [some 90, some 91, some 92, some 93, some 94, none, none], cwd := "/",
      nextHandle := 101, nextPid := 11, events := [Event.out "hi"] } from by decide]
  exact h
